import Mathlib

/-!
Verification of the blueprint pipeline engine (src/unnamed/part_002, the
`makeCallable`-based implementation, identical to src/dist/index.js) and of
the alternative closure-based factory in the same file (the
`Blueprint<Self, P, R>` implementation whose `implement` and `addon`
mutate the receiver).

The embedding models JavaScript values with an inductive `JVal`
(promise-like values are the `deferred` / `deferredErr` constructors),
side effects with a trace-writer plus exception monad `Eff`, and
translates the invocation pipeline of `callableBlueprint`
(source lines 558-651) stage by stage.
-/

/-- Observable side effects of an invocation: every hook, mapper or core
implementation may append entries to the trace. -/
abbrev Trace := List String

/-- Effect monad for embedded JavaScript functions: a computation reads and
extends the trace, and either returns a value or propagates a thrown error
(errors are modelled by their message). -/
def Eff (α : Type) : Type := Trace → Except String α × Trace

/-- Return a value without effects. -/
def epure {α : Type} (a : α) : Eff α := fun t => (Except.ok a, t)

/-- Sequencing: effects of the first computation happen first; a thrown
error skips the continuation but keeps the trace emitted so far. -/
def ebind {α β : Type} (m : Eff α) (k : α → Eff β) : Eff β := fun t =>
  match m t with
  | (Except.ok a, t2) => k a t2
  | (Except.error e, t2) => (Except.error e, t2)

instance : Monad Eff where
  pure := epure
  bind := ebind

/-- Throw an error (models a JavaScript `throw`). -/
def throwE {α : Type} (e : String) : Eff α := fun t => (Except.error e, t)

/-- Emit an observable side effect (models e.g. a console write or any
externally visible action of a hook). -/
def emitE (s : String) : Eff Unit := fun t => (Except.ok (), t ++ [s])

/-- Run an effectful computation on the empty initial trace. -/
def runE {α : Type} (m : Eff α) : Except String α × Trace := m []

theorem ebind_run {α β : Type} (m : Eff α) (k : α → Eff β) (t : Trace) :
    (m >>= k) t =
      match m t with
      | (Except.ok a, t2) => k a t2
      | (Except.error e, t2) => (Except.error e, t2) := rfl

theorem epure_run {α : Type} (a : α) (t : Trace) :
    (pure a : Eff α) t = (Except.ok a, t) := rfl

theorem ebind_epure {α : Type} (m : Eff α) : (m >>= fun a => (pure a : Eff α)) = m := by
  funext t
  show ebind m (fun a => epure a) t = m t
  unfold ebind epure
  cases h : m t with
  | mk r t2 => cases r <;> simp

/-- JavaScript values as far as the engine observes them.  `deferred v` is a
promise resolved with `v`, `deferredErr e` a promise rejected with error
message `e`.  Objects are insertion-ordered field lists (JavaScript objects
never carry duplicate keys; merging is modelled faithfully below). -/
inductive JVal : Type where
  | undef : JVal
  | vnull : JVal
  | num (n : Int) : JVal
  | str (s : String) : JVal
  | jbool (b : Bool) : JVal
  | obj (fields : List (String × JVal)) : JVal
  | deferred (v : JVal) : JVal
  | deferredErr (e : String) : JVal

/-- `typeof v === 'object'` (true for objects, `null`, and promises). -/
def jsTypeofObject : JVal → Bool
  | JVal.obj _ => true
  | JVal.vnull => true
  | JVal.deferred _ => true
  | JVal.deferredErr _ => true
  | _ => false

def isUndefB : JVal → Bool
  | JVal.undef => true
  | _ => false

def isNullB : JVal → Bool
  | JVal.vnull => true
  | _ => false

/-- JavaScript truthiness. -/
def jsTruthy : JVal → Bool
  | JVal.undef => false
  | JVal.vnull => false
  | JVal.num n => n != 0
  | JVal.str s => s ≠ ""
  | JVal.jbool b => b
  | JVal.obj _ => true
  | JVal.deferred _ => true
  | JVal.deferredErr _ => true

/-- `value && typeof value.then === 'function'`: only promise-like values
expose a callable `then` in this model. -/
def isThenable : JVal → Bool
  | JVal.deferred _ => true
  | JVal.deferredErr _ => true
  | _ => false

/-- JavaScript property assignment `target[k] = v` on a field list: replace
the entry in place when the key exists, append otherwise (preserves key
order exactly as assignment on JavaScript objects does). -/
def assignField {α : Type} : List (String × α) → String → α → List (String × α)
  | [], k, v => [(k, v)]
  | (k1, v1) :: rest, k, v =>
      if k1 == k then (k, v) :: rest else (k1, v1) :: assignField rest k v

/-- Object spread `{...a, ...b}` restricted to the fields of `b`: assign
each field of `b` in order onto `a`. -/
def jmergeFields {α : Type} (a : List (String × α)) :
    List (String × α) → List (String × α)
  | [] => a
  | (k, v) :: rest => jmergeFields (assignField a k v) rest

/-- Property lookup `fs[k]` (first matching key; merged field lists never
hold duplicate keys). -/
def oget {α : Type} : List (String × α) → String → Option α
  | [], _ => none
  | (k1, v) :: rest, k => if k1 == k then some v else oget rest k

/-- Spreading an arbitrary value into an object literal: objects contribute
their fields, strings contribute indexed one-character fields, every other
value contributes nothing (JavaScript spread semantics). -/
def spreadVal (acc : List (String × JVal)) : JVal → List (String × JVal)
  | JVal.obj fs => jmergeFields acc fs
  | JVal.str s =>
      jmergeFields acc ((s.toList.enum).map (fun p => (toString p.1, JVal.str (String.mk [p.2]))))
  | _ => acc

/-- Fields of an object value ([] for non-objects). -/
def fieldsOf : JVal → List (String × JVal)
  | JVal.obj fs => fs
  | _ => []

/-- `props.k` on an object (undefined when absent or not an object). -/
def jget (v : JVal) (k : String) : JVal :=
  match v with
  | JVal.obj fs => (oget fs k).getD JVal.undef
  | _ => JVal.undef

/-- Numeric coercion used by the concrete test logics. -/
def numOf : JVal → Int
  | JVal.num n => n
  | _ => 0

/-!
## The pipeline engine state (source lines 496-512, `BlueprintState`)

Mappers, hooks, providers and the core implementation are arbitrary
embedded JavaScript functions `JVal → Eff JVal`; schema `parse` is an
effect-free parse-or-fail contract.  `defaultProviders` holds only
functions because `defaults` (line 674) wraps static records into
constant providers before storing them.
-/

structure BlueprintState : Type where
  key : Option String := none
  description : Option String := none
  implementation : Option (JVal → Eff JVal) := none
  inputMappers : List (JVal → Eff JVal) := []
  outputMappers : List (JVal → JVal → Eff JVal) := []
  beforeHooks : List (JVal → Eff JVal) := []
  afterHooks : List (JVal → JVal → Eff JVal) := []
  defaultProviders : List (JVal → Eff JVal) := []
  enforcedValues : List (String × JVal) := []
  isAsync : Bool := false
  isVoid : Bool := false
  validateProps : Bool := false
  propsSchema : Option (JVal → Except String JVal) := none
  validateResults : Bool := false
  resultSchema : Option (JVal → Except String JVal) := none

/-- Source lines 566-570: accumulate the union of all default providers'
outputs; every provider is applied to the same `currentProps`, later
providers' keys override earlier ones via object spread. -/
def resolveDefaultsLoop (providers : List (JVal → Eff JVal)) (currentProps : JVal) :
    Eff (List (String × JVal)) :=
  providers.foldlM (fun acc provider => do
    let d ← provider currentProps
    pure (spreadVal acc d)) []

/-- Source lines 560-563: the shallow copy of an object input
(`{ ...props }`, a fresh plain object for promises as well) and the
undefined-input adjustment (`currentProps = {}` when the input is
`undefined` and at least one default provider exists; the source tests
`Object.keys(currentState.defaultProviders).length > 0` on the provider
array, i.e. non-emptiness). -/
def adjustInput (st : BlueprintState) (props : JVal) : JVal :=
  let currentProps0 : JVal :=
    if jsTypeofObject props && !(isNullB props) then JVal.obj (spreadVal [] props)
    else props
  if isUndefB props && !(st.defaultProviders.isEmpty) then JVal.obj []
  else currentProps0

/-- Source lines 571-578, the pure merge once the defaults are resolved:
the merge of line 571 (note the `{ props }` shorthand wrapping a primitive
input into a record under key "props"), the two unreachable primitive
branches of lines 572-575, and the re-merge of line 577. -/
def preEnforceProps (st : BlueprintState) (props : JVal)
    (resolvedDefaults : List (String × JVal)) : JVal :=
  let currentProps2 : JVal :=
    JVal.obj (spreadVal resolvedDefaults
      (if jsTypeofObject props && !(isNullB props) then props
       else if isUndefB props then JVal.obj []
       else JVal.obj [("props", props)]))
  if !(jsTypeofObject currentProps2) && st.enforcedValues.isEmpty
      && st.inputMappers.isEmpty && st.implementation.isNone then
    currentProps2
  else if !(jsTypeofObject currentProps2) && !(isNullB currentProps2)
      && !(isUndefB currentProps2) then
    currentProps2
  else
    JVal.obj (spreadVal resolvedDefaults
      (if jsTruthy currentProps2 then currentProps2 else JVal.obj []))

/-- Source line 581: `currentProps = { ...currentProps, ...enforcedValues }`. -/
def mergeStep (st : BlueprintState) (props : JVal)
    (resolvedDefaults : List (String × JVal)) : JVal :=
  JVal.obj (jmergeFields (fieldsOf (preEnforceProps st props resolvedDefaults))
    st.enforcedValues)

/-- Source lines 560-581 (stages 1-2 of the invocation protocol plus
enforcement): input adjustment, default resolution over the adjusted
input, then the pure merge and enforcement step. -/
def resolveProps (st : BlueprintState) (props : JVal) : Eff JVal := do
  let resolvedDefaults ← resolveDefaultsLoop st.defaultProviders (adjustInput st props)
  pure (mergeStep st props resolvedDefaults)

/-- Source lines 584-587 (stage 3): input mappers run in list order, each
consuming the previous mapper's output. -/
def mapProps (st : BlueprintState) (p : JVal) : Eff JVal :=
  st.inputMappers.foldlM (fun v mapper => mapper v) p

/-- Source lines 589-599 (stage 3.5): props validation when a schema is
attached and enabled; on failure the diagnostic is logged and the
validation error is rethrown. -/
def validatePropsStage (st : BlueprintState) (mapped : JVal) : Eff JVal :=
  if st.validateProps then
    match st.propsSchema with
    | some schema =>
        match schema mapped with
        | Except.ok v => epure v
        | Except.error e => do
            emitE "console.error: Blueprint props validation error"
            throwE e
    | none => epure mapped
  else epure mapped

/-- Source line 602 (stage 4): run every before hook on the validated
props, discarding return values. -/
def runBeforeHooks (st : BlueprintState) (vp : JVal) : Eff Unit :=
  st.beforeHooks.forM (fun hook => do
    let _ ← hook vp
    pure ())

/-- Source lines 605-608: the unimplemented-pipeline error message
(the key is included only when truthy, i.e. a non-empty string). -/
def notImplementedMsg (key : Option String) : String :=
  "Blueprint " ++
    (match key with
     | some k => if k ≠ "" then "'" ++ k ++ "' " else ""
     | none => "") ++
    "has not been implemented."

/-- Source lines 617-644 (`processResultAndFinalize`, stages 7-9 of the
source numbering): output mappers in addition order (each receiving the
running result and the validated props), result validation, after hooks,
void collapse. -/
def processResultAndFinalize (st : BlueprintState) (validatedProps : JVal)
    (resolvedResult : JVal) : Eff JVal := do
  let currentResult ← st.outputMappers.foldlM
    (fun r mapper => mapper r validatedProps) resolvedResult
  let validatedResult ←
    (if st.validateResults then
      match st.resultSchema with
      | some schema =>
          match schema currentResult with
          | Except.ok v => epure v
          | Except.error e => do
              emitE "console.error: Blueprint result validation error"
              throwE e
      | none => epure currentResult
    else epure currentResult)
  st.afterHooks.forM (fun hook => do
    let _ ← hook validatedResult validatedProps
    pure ())
  if st.isVoid then epure JVal.undef else epure validatedResult

/-- `promise.then(f)`: run the continuation on the resolved value; a value
returned by the continuation is flattened one level, a thrown error becomes
a rejection; a rejected promise skips the continuation.  Only ever applied
to promise-like values (guarded by `isThenable` at every call site). -/
def jthen (v : JVal) (f : JVal → Eff JVal) : Eff JVal :=
  match v with
  | JVal.deferred x => fun t =>
      match f x t with
      | (Except.ok (JVal.deferred w), t2) => (Except.ok (JVal.deferred w), t2)
      | (Except.ok (JVal.deferredErr e), t2) => (Except.ok (JVal.deferredErr e), t2)
      | (Except.ok u, t2) => (Except.ok (JVal.deferred u), t2)
      | (Except.error e, t2) => (Except.ok (JVal.deferredErr e), t2)
  | JVal.deferredErr e => epure (JVal.deferredErr e)
  | _ => throwE "TypeError: not a thenable"

/-- Source lines 613-615 (stage 6, async normalization): wrap a
non-promise core result in a resolved promise when `isAsync` is set. -/
def asyncNormalize (st : BlueprintState) (result0 : JVal) : JVal :=
  if st.isAsync && !(jsTruthy result0 && isThenable result0) then
    JVal.deferred result0
  else result0

/-- Source lines 612-650 given the raw core result: async normalization,
then `processResultAndFinalize` — through `.then` when the normalized
result is promise-like, directly otherwise. -/
def coreTail (st : BlueprintState) (validatedProps result0 : JVal) : Eff JVal :=
  if jsTruthy (asyncNormalize st result0) && isThenable (asyncNormalize st result0) then
    jthen (asyncNormalize st result0) (processResultAndFinalize st validatedProps)
  else
    processResultAndFinalize st validatedProps (asyncNormalize st result0)

/-- Source lines 601-650: the tail of an invocation once the validated
props are fixed — before hooks, the missing-implementation check, core
logic, then `coreTail`. -/
def invokeFromValidated (st : BlueprintState) (validatedProps : JVal) : Eff JVal := do
  runBeforeHooks st validatedProps
  match st.implementation with
  | none => throwE (notImplementedMsg st.key)
  | some impl => impl validatedProps >>= coreTail st validatedProps

/-- Source lines 560-599: the input-side stages in order — defaults and
enforcement (`resolveProps`), input mapping, props validation — producing
the validated props handed to hooks and core logic. -/
def stagesToValidated (st : BlueprintState) (props : JVal) : Eff JVal := do
  let cp ← resolveProps st props
  let mapped ← mapProps st cp
  validatePropsStage st mapped

/-- Source lines 559-651: one invocation of the callable built by
`makeCallable` over state `st`.  Stage order is exactly the source's:
defaults and enforcement, input mapping, props validation, then the tail
`invokeFromValidated` (before hooks, core logic, result processing). -/
def callableBlueprint (st : BlueprintState) (props : JVal) : Eff JVal := do
  let validatedProps ← stagesToValidated st props
  invokeFromValidated st validatedProps

/-- Source lines 711-726: the implementation a `pipe` call installs —
invoke the current callable, then feed the (resolved) result into `next`.
The two branches of `executeNext` (lines 715-718) perform the same call
whether `next` is a blueprint or a bare function, so `next` is modelled as
one function. -/
def pipeImplementation (st : BlueprintState) (next : JVal → Eff JVal)
    (initialProps : JVal) : Eff JVal := do
  let r ← callableBlueprint st initialProps
  if jsTruthy r && isThenable r then jthen r next else next r

/-- Source lines 731-747: the state backing the callable returned by
`pipe` — fresh empty mapper/hook/provider/validator configuration, async
and void flags carried over from the current state, key and description
decorated when truthy. -/
def pipeState (st : BlueprintState) (next : JVal → Eff JVal) : BlueprintState where
  key := match st.key with
    | some k => if k ≠ "" then some (k ++ " |> piped") else none
    | none => none
  description := match st.description with
    | some d => if d ≠ "" then some (d ++ ", then piped") else none
    | none => none
  implementation := some (pipeImplementation st next)
  inputMappers := []
  outputMappers := []
  beforeHooks := []
  afterHooks := []
  defaultProviders := []
  enforcedValues := []
  isAsync := st.isAsync
  isVoid := st.isVoid
  validateProps := false
  propsSchema := none
  validateResults := false
  resultSchema := none

/-- One chain-method call with its argument (the twelve chain methods of
the engine, source lines 657-748). -/
inductive ChainCall : Type where
  | implementC (f : JVal → Eff JVal) : ChainCall
  | inputC (t : JVal → Eff JVal) : ChainCall
  | defaultsC (d : Sum JVal (JVal → Eff JVal)) : ChainCall
  | enforceC (e : List (String × JVal)) : ChainCall
  | outputC (t : JVal → JVal → Eff JVal) : ChainCall
  | beforeC (h : JVal → Eff JVal) : ChainCall
  | afterC (h : JVal → JVal → Eff JVal) : ChainCall
  | toAsyncC : ChainCall
  | toVoidC : ChainCall
  | zPropsC (s : JVal → Except String JVal) : ChainCall
  | zResultC (s : JVal → Except String JVal) : ChainCall
  | pipeC (next : JVal → Eff JVal) : ChainCall

/-- Source line 674: `defaults` wraps a static record into a constant
provider; a function argument is stored as-is. -/
def toProvider : Sum JVal (JVal → Eff JVal) → (JVal → Eff JVal)
  | Sum.inl v => fun _ => epure v
  | Sum.inr f => f

/-- The state transition performed by each chain method (source lines
657-748): every method builds the state of the NEW callable by structural
copy of the current state with one field changed. -/
def applyChain (c : ChainCall) (st : BlueprintState) : BlueprintState :=
  match c with
  | ChainCall.implementC f => { st with implementation := some f }
  | ChainCall.inputC t => { st with inputMappers := t :: st.inputMappers }
  | ChainCall.defaultsC d =>
      { st with defaultProviders := st.defaultProviders ++ [toProvider d] }
  | ChainCall.enforceC e =>
      { st with enforcedValues := jmergeFields st.enforcedValues e }
  | ChainCall.outputC t => { st with outputMappers := st.outputMappers ++ [t] }
  | ChainCall.beforeC h => { st with beforeHooks := st.beforeHooks ++ [h] }
  | ChainCall.afterC h => { st with afterHooks := st.afterHooks ++ [h] }
  | ChainCall.toAsyncC => { st with isAsync := true }
  | ChainCall.toVoidC => { st with isVoid := true }
  | ChainCall.zPropsC s => { st with propsSchema := some s, validateProps := true }
  | ChainCall.zResultC s => { st with resultSchema := some s, validateResults := true }
  | ChainCall.pipeC next => pipeState st next

/-!
## Heap model of callable identity

Each callable returned by `makeCallable` is a fresh closure over its own
state.  The heap is the list of allocated callables (index = identity);
a chain method on callable `i` reads its state, allocates a NEW callable
with the derived state (source: every chain method returns
`makeCallable({ ...currentState, ... })`), and leaves slot `i` untouched.
-/

def applyChainHeap (σ : List BlueprintState) (i : Nat) (c : ChainCall) :
    Nat × List BlueprintState :=
  match σ.get? i with
  | some st => (σ.length, σ ++ [applyChain c st])
  | none => (i, σ)

/-!
## The alternative closure-based factory (source lines 204-311)

The second blueprint implementation in src/unnamed/part_002: the callable
closes over a MUTABLE `implementation` variable (line 216) plus `addons`
and addon-contributed fields stored as properties on the callable itself.
`implement` (lines 224-227) assigns the closure variable and returns
`_blueprint`, i.e. the receiver; `addon` (lines 245-247) runs
`Object.assign(_blueprint, { addons: [...], ...addon.core })`, mutating the
receiver in place and returning it.
-/

/-- A capability bundle: `{ core: {...} }` (source lines 313-315); its
fields are modelled as data values. -/
structure AddonBundle : Type where
  core : List (String × JVal)

/-- Mutable per-instance state of the alternative factory: the closure
variable `implementation`, the `addons` property and the fields merged onto
the callable by attached addons. -/
structure AltBlueprintState : Type where
  implementation : JVal → Eff JVal
  addons : List AddonBundle
  fields : List (String × JVal)

/-- The initial implementation when no `init` is given (line 216):
`() => { throw new Error('Not Implemented') }`. -/
def altNotImplemented : JVal → Eff JVal := fun _ => throwE "Not Implemented"

/-- Invoking an alternative-factory blueprint (line 219):
`(props) => implementation(props)` reads the closure variable at call
time. -/
def altCall (σ : List AltBlueprintState) (i : Nat) (p : JVal) : Eff JVal :=
  match σ.get? i with
  | some st => st.implementation p
  | none => throwE "invalid blueprint reference"

/-- `implement` of the alternative factory (lines 224-227): overwrite the
receiver's closure variable and return the receiver itself — the same
heap slot, not a new callable. -/
def altImplement (σ : List AltBlueprintState) (i : Nat) (f : JVal → Eff JVal) :
    Nat × List AltBlueprintState :=
  match σ.get? i with
  | some st => (i, σ.set i { st with implementation := f })
  | none => (i, σ)

/-- `addon` of the alternative factory (lines 245-247):
`Object.assign(_blueprint, { addons: [..._blueprint.addons, addon],
...addon.core })` — append the bundle to `addons`, assign each of the
bundle's core fields onto the receiver, and return the receiver itself. -/
def altAddon (σ : List AltBlueprintState) (i : Nat) (a : AddonBundle) :
    Nat × List AltBlueprintState :=
  match σ.get? i with
  | some st =>
      (i, σ.set i { st with
        addons := st.addons ++ [a],
        fields := jmergeFields st.fields a.core })
  | none => (i, σ)


/-!
## Object-merge lemmas
-/

/-- No-duplicate-keys invariant every real JavaScript object satisfies. -/
def KeysNodup {α : Type} (fs : List (String × α)) : Prop :=
  (fs.map Prod.fst).Nodup

theorem boolEqFalse {b : Bool} (h : ¬ b = true) : b = false := by
  cases b
  · rfl
  · exact absurd rfl h

theorem beqFalseOfNe {k k' : String} (h : k ≠ k') : (k == k') = false := by
  cases hb : k == k'
  · rfl
  · exact absurd (by simpa using hb) h

theorem oget_assignField_self {α : Type} (fs : List (String × α)) (k : String) (v : α) :
    oget (assignField fs k v) k = some v := by
  induction fs with
  | nil => simp [assignField, oget]
  | cons p rest ih =>
      rcases p with ⟨k1, v1⟩
      by_cases hp : (k1 == k) = true
      · simp [assignField, hp, oget]
      · have hp' := boolEqFalse hp
        simp [assignField, hp', oget, ih]

theorem oget_assignField_other {α : Type} (fs : List (String × α)) (k k' : String) (v : α)
    (hne : k ≠ k') :
    oget (assignField fs k v) k' = oget fs k' := by
  have hnb := beqFalseOfNe hne
  induction fs with
  | nil => simp [assignField, oget, hnb]
  | cons p rest ih =>
      rcases p with ⟨k1, v1⟩
      by_cases hp : (k1 == k) = true
      · have hk1 : k1 = k := by simpa using hp
        simp [assignField, hp, oget, hnb, hk1]
      · have hp' := boolEqFalse hp
        simp [assignField, hp', oget, ih]

theorem mem_keys_assignField {α : Type} (fs : List (String × α)) (k k'' : String) (v : α)
    (h : k'' ∈ (assignField fs k v).map Prod.fst) :
    k'' ∈ fs.map Prod.fst ∨ k'' = k := by
  induction fs with
  | nil =>
      simp [assignField] at h
      exact Or.inr h
  | cons p rest ih =>
      rcases p with ⟨k1, v1⟩
      by_cases hp : (k1 == k) = true
      · have hk1 : k1 = k := by simpa using hp
        simp only [assignField, hp, if_true, List.map_cons] at h
        rcases List.mem_cons.mp h with h1 | h1
        · exact Or.inr h1
        · exact Or.inl (List.mem_cons_of_mem _ h1)
      · have hp' := boolEqFalse hp
        simp only [assignField, hp', Bool.false_eq_true, if_false, List.map_cons] at h
        rcases List.mem_cons.mp h with h1 | h1
        · exact Or.inl (by simp [h1])
        · rcases ih h1 with h2 | h2
          · exact Or.inl (List.mem_cons_of_mem _ h2)
          · exact Or.inr h2

theorem keysNodup_assignField {α : Type} (fs : List (String × α)) (k : String) (v : α)
    (h : KeysNodup fs) : KeysNodup (assignField fs k v) := by
  induction fs with
  | nil => simp [assignField, KeysNodup]
  | cons p rest ih =>
      rcases p with ⟨k1, v1⟩
      have h' := List.nodup_cons.mp h
      by_cases hp : (k1 == k) = true
      · have hk1 : k1 = k := by simpa using hp
        simp only [assignField, hp, if_true]
        exact List.nodup_cons.mpr ⟨by rw [← hk1]; exact h'.1, h'.2⟩
      · have hp' := boolEqFalse hp
        have hk1 : k1 ≠ k := by
          intro hh
          rw [hh] at hp'
          simp at hp'
        simp only [assignField, hp', Bool.false_eq_true, if_false]
        refine List.nodup_cons.mpr ⟨?_, ih h'.2⟩
        intro hmem
        rcases mem_keys_assignField rest k k1 v (by simpa using hmem) with h2 | h2
        · exact h'.1 h2
        · exact hk1 h2

theorem oget_jmergeFields_notMem {α : Type} (b : List (String × α)) (k : String)
    (h : ∀ p ∈ b, p.1 ≠ k) :
    ∀ a, oget (jmergeFields a b) k = oget a k := by
  induction b with
  | nil => intro a; rfl
  | cons p rest ih =>
      intro a
      rcases p with ⟨k1, v1⟩
      have hk1 : k1 ≠ k := h (k1, v1) (List.mem_cons_self _ _)
      rw [jmergeFields]
      rw [ih (fun q hq => h q (List.mem_cons_of_mem _ hq))]
      exact oget_assignField_other a k1 k v1 hk1

theorem oget_jmergeFields_right {α : Type} (b : List (String × α)) (k : String) (v : α)
    (hnd : KeysNodup b) (h : oget b k = some v) :
    ∀ a, oget (jmergeFields a b) k = some v := by
  induction b with
  | nil => simp [oget] at h
  | cons p rest ih =>
      intro a
      rcases p with ⟨k1, v1⟩
      have hnd' := List.nodup_cons.mp hnd
      rw [jmergeFields]
      by_cases hp : (k1 == k) = true
      · have hk : k1 = k := by simpa using hp
        have hv : some v1 = some v := by simpa [oget, hp] using h
        have hrest : ∀ q ∈ rest, q.1 ≠ k := by
          intro q hq hqk
          apply hnd'.1
          exact List.mem_map.mpr ⟨q, hq, by rw [hqk]; exact hk.symm⟩
        rw [oget_jmergeFields_notMem rest k hrest]
        rw [← hv, ← hk]
        exact oget_assignField_self a k1 v1
      · have hp' := boolEqFalse hp
        have h2 : oget rest k = some v := by simpa [oget, hp'] using h
        exact ih hnd'.2 h2 (assignField a k1 v1)

theorem keysNodup_jmergeFields {α : Type} (b : List (String × α)) :
    ∀ a, KeysNodup a → KeysNodup (jmergeFields a b) := by
  induction b with
  | nil => intro a h; exact h
  | cons p rest ih =>
      intro a h
      rcases p with ⟨k1, v1⟩
      rw [jmergeFields]
      exact ih _ (keysNodup_assignField a k1 v1 h)

theorem keysNodup_spreadVal (acc : List (String × JVal)) (v : JVal)
    (h : KeysNodup acc) : KeysNodup (spreadVal acc v) := by
  cases v with
  | obj fs => exact keysNodup_jmergeFields fs acc h
  | str s => exact keysNodup_jmergeFields _ acc h
  | undef => exact h
  | vnull => exact h
  | num n => exact h
  | jbool b => exact h
  | deferred w => exact h
  | deferredErr e => exact h

theorem assignField_notMem {α : Type} (a : List (String × α)) (k : String) (v : α)
    (h : ∀ q ∈ a, q.1 ≠ k) : assignField a k v = a ++ [(k, v)] := by
  induction a with
  | nil => rfl
  | cons p rest ih =>
      rcases p with ⟨k1, v1⟩
      have hk1 : k1 ≠ k := h (k1, v1) (List.mem_cons_self _ _)
      have hb := beqFalseOfNe hk1
      simp only [assignField, hb, Bool.false_eq_true, if_false, List.cons_append]
      rw [ih (fun q hq => h q (List.mem_cons_of_mem _ hq))]

theorem jmergeFields_append {α : Type} (b : List (String × α)) :
    ∀ a, (∀ p ∈ b, ∀ q ∈ a, p.1 ≠ q.1) → KeysNodup b → jmergeFields a b = a ++ b := by
  induction b with
  | nil =>
      intro a _ _
      simp [jmergeFields]
  | cons p rest ih =>
      intro a hdisj hnd
      rcases p with ⟨k1, v1⟩
      have hnd' := List.nodup_cons.mp hnd
      rw [jmergeFields]
      rw [assignField_notMem a k1 v1
        (fun q hq hqk => hdisj (k1, v1) (List.mem_cons_self _ _) q hq hqk.symm)]
      rw [ih (a ++ [(k1, v1)]) ?_ hnd'.2]
      · simp
      · intro p hp q hq
        rcases List.mem_append.mp hq with hq1 | hq1
        · exact hdisj p (List.mem_cons_of_mem _ hp) q hq1
        · have : q = (k1, v1) := by simpa using hq1
          rw [this]
          intro hpk
          exact hnd'.1 (List.mem_map.mpr ⟨p, hp, hpk⟩)

theorem jmergeFields_nil_left {α : Type} (fs : List (String × α)) (h : KeysNodup fs) :
    jmergeFields [] fs = fs := by
  have := jmergeFields_append fs [] (by intro p _ q hq; simp at hq) h
  simpa using this

/-!
## Run lemmas for the effect monad folds
-/

theorem foldlM_nil_eff {α β : Type} (f : β → α → Eff β) (b : β) :
    List.foldlM f b ([] : List α) = pure b := rfl

theorem foldlM_cons_eff {α β : Type} (f : β → α → Eff β) (b : β) (x : α) (xs : List α) :
    List.foldlM f b (x :: xs) = f b x >>= fun b2 => List.foldlM f b2 xs := rfl

theorem forM_nil_eff {α : Type} (f : α → Eff Unit) :
    ([] : List α).forM f = (pure () : Eff Unit) := rfl

theorem forM_cons_eff {α : Type} (f : α → Eff Unit) (x : α) (xs : List α) :
    (x :: xs).forM f = f x >>= fun _ => xs.forM f := rfl

theorem defaultsStep_run (cp : JVal) (acc : List (String × JVal))
    (p : JVal → Eff JVal) (t : Trace) :
    ((do
      let d ← p cp
      pure (spreadVal acc d)) : Eff (List (String × JVal))) t =
      match (p cp) t with
      | (Except.ok d, td) => (Except.ok (spreadVal acc d), td)
      | (Except.error e, td) => (Except.error e, td) := by
  rw [ebind_run]
  cases hpc : (p cp) t with
  | mk res td => cases res <;> rfl

theorem resolveDefaultsLoop_nodup_aux (providers : List (JVal → Eff JVal)) (cp : JVal) :
    ∀ (acc : List (String × JVal)) (t : Trace) (r : List (String × JVal)) (t2 : Trace),
      KeysNodup acc →
      (List.foldlM (fun (acc : List (String × JVal)) (provider : JVal → Eff JVal) => do
          let d ← provider cp
          pure (spreadVal acc d)) acc providers) t = (Except.ok r, t2) →
      KeysNodup r := by
  induction providers with
  | nil =>
      intro acc t r t2 hnd hrun
      rw [foldlM_nil_eff, epure_run] at hrun
      simp only [Prod.mk.injEq, Except.ok.injEq] at hrun
      rw [← hrun.1]
      exact hnd
  | cons p rest ih =>
      intro acc t r t2 hnd hrun
      rw [foldlM_cons_eff, ebind_run, defaultsStep_run] at hrun
      cases hpc : (p cp) t with
      | mk res td =>
          rw [hpc] at hrun
          cases res with
          | ok d =>
              exact ih (spreadVal acc d) td r t2 (keysNodup_spreadVal acc d hnd) hrun
          | error e => simp at hrun

theorem resolveDefaultsLoop_nodup (providers : List (JVal → Eff JVal)) (cp : JVal)
    (t : Trace) (r : List (String × JVal)) (t2 : Trace)
    (h : (resolveDefaultsLoop providers cp) t = (Except.ok r, t2)) : KeysNodup r :=
  resolveDefaultsLoop_nodup_aux providers cp [] t r t2 (by simp [KeysNodup]) h

theorem resolveProps_run (st : BlueprintState) (props : JVal) (t : Trace) :
    resolveProps st props t =
      match (resolveDefaultsLoop st.defaultProviders (adjustInput st props)) t with
      | (Except.ok rd, t2) => (Except.ok (mergeStep st props rd), t2)
      | (Except.error e, t2) => (Except.error e, t2) := by
  show (resolveDefaultsLoop st.defaultProviders (adjustInput st props) >>=
    fun rd => pure (mergeStep st props rd)) t = _
  rw [ebind_run]
  cases hl : (resolveDefaultsLoop st.defaultProviders (adjustInput st props)) t with
  | mk res t2 => cases res <;> rfl

theorem resolveProps_ok (st : BlueprintState) (props : JVal) (t : Trace) (r : JVal)
    (t2 : Trace) (h : resolveProps st props t = (Except.ok r, t2)) :
    ∃ rd, KeysNodup rd ∧ r = mergeStep st props rd ∧
      (resolveDefaultsLoop st.defaultProviders (adjustInput st props)) t =
        (Except.ok rd, t2) := by
  rw [resolveProps_run] at h
  cases hl : (resolveDefaultsLoop st.defaultProviders (adjustInput st props)) t with
  | mk res t3 =>
      rw [hl] at h
      cases res with
      | ok rd =>
          simp only [Prod.mk.injEq, Except.ok.injEq] at h
          exact ⟨rd, resolveDefaultsLoop_nodup _ _ t rd t3 hl, h.1.symm, by rw [← h.2]⟩
      | error e => simp at h

theorem oget_eq_none_iff {α : Type} (fs : List (String × α)) (k : String) :
    oget fs k = none ↔ ∀ p ∈ fs, p.1 ≠ k := by
  induction fs with
  | nil => simp [oget]
  | cons p rest ih =>
      rcases p with ⟨k1, v1⟩
      by_cases hp : (k1 == k) = true
      · have hk : k1 = k := by simpa using hp
        simp [oget, hp, hk]
      · have hp' := boolEqFalse hp
        have hk : k1 ≠ k := by
          intro hh
          rw [hh] at hp'
          simp at hp'
        simp [oget, hp', ih, hk]

theorem jmergeFields_nilRight {α : Type} (a : List (String × α)) :
    jmergeFields a [] = a := rfl

theorem preEnforceProps_obj (st : BlueprintState) (fs rd : List (String × JVal)) :
    preEnforceProps st (JVal.obj fs) rd =
      JVal.obj (jmergeFields rd (jmergeFields rd fs)) := by
  simp [preEnforceProps, jsTypeofObject, isNullB, isUndefB, jsTruthy, spreadVal]

theorem preEnforceProps_prim (st : BlueprintState) (props : JVal)
    (rd : List (String × JVal)) (hobj : jsTypeofObject props = false)
    (hundef : isUndefB props = false) :
    preEnforceProps st props rd =
      JVal.obj (jmergeFields rd (assignField rd "props" props)) := by
  cases props with
  | undef => simp [isUndefB] at hundef
  | vnull => simp [jsTypeofObject] at hobj
  | obj fs => simp [jsTypeofObject] at hobj
  | deferred w => simp [jsTypeofObject] at hobj
  | deferredErr e => simp [jsTypeofObject] at hobj
  | num n =>
      simp [preEnforceProps, jsTypeofObject, isNullB, isUndefB, jsTruthy, spreadVal,
        jmergeFields]
  | str s =>
      simp [preEnforceProps, jsTypeofObject, isNullB, isUndefB, jsTruthy, spreadVal,
        jmergeFields]
  | jbool b =>
      simp [preEnforceProps, jsTypeofObject, isNullB, isUndefB, jsTruthy, spreadVal,
        jmergeFields]

theorem preEnforceProps_undef_empty (st : BlueprintState) (rd : List (String × JVal)) :
    preEnforceProps st JVal.undef rd = preEnforceProps st (JVal.obj []) rd := by
  simp [preEnforceProps, jsTypeofObject, isNullB, isUndefB, jsTruthy, spreadVal,
    jmergeFields]

theorem adjustInput_undef_empty (st : BlueprintState)
    (h : st.defaultProviders.isEmpty = false) :
    adjustInput st JVal.undef = adjustInput st (JVal.obj []) := by
  simp [adjustInput, jsTypeofObject, isNullB, isUndefB, h, spreadVal, jmergeFields]

theorem oget_mergeStep_enforced (st : BlueprintState) (props : JVal)
    (rd : List (String × JVal)) (k : String) (v : JVal)
    (hnd : KeysNodup st.enforcedValues) (h : oget st.enforcedValues k = some v) :
    oget (fieldsOf (mergeStep st props rd)) k = some v :=
  oget_jmergeFields_right st.enforcedValues k v hnd h
    (fieldsOf (preEnforceProps st props rd))

theorem oget_mergeStep_notEnforced (st : BlueprintState) (props : JVal)
    (rd : List (String × JVal)) (k : String)
    (h : ∀ p ∈ st.enforcedValues, p.1 ≠ k) :
    oget (fieldsOf (mergeStep st props rd)) k =
      oget (fieldsOf (preEnforceProps st props rd)) k :=
  oget_jmergeFields_notMem st.enforcedValues k h
    (fieldsOf (preEnforceProps st props rd))

theorem oget_preEnforce_caller (st : BlueprintState) (fs rd : List (String × JVal))
    (k : String) (v : JVal) (hndfs : KeysNodup fs) (hndrd : KeysNodup rd)
    (h : oget fs k = some v) :
    oget (fieldsOf (preEnforceProps st (JVal.obj fs) rd)) k = some v := by
  rw [preEnforceProps_obj]
  exact oget_jmergeFields_right (jmergeFields rd fs) k v
    (keysNodup_jmergeFields fs rd hndrd)
    (oget_jmergeFields_right fs k v hndfs h rd) rd

theorem oget_preEnforce_default (st : BlueprintState) (fs rd : List (String × JVal))
    (k : String) (v : JVal) (hndrd : KeysNodup rd)
    (hcaller : ∀ p ∈ fs, p.1 ≠ k) (h : oget rd k = some v) :
    oget (fieldsOf (preEnforceProps st (JVal.obj fs) rd)) k = some v := by
  rw [preEnforceProps_obj]
  have hinner : oget (jmergeFields rd fs) k = some v := by
    rw [oget_jmergeFields_notMem fs k hcaller rd]
    exact h
  exact oget_jmergeFields_right (jmergeFields rd fs) k v
    (keysNodup_jmergeFields fs rd hndrd) hinner rd

theorem oget_preEnforce_prim (st : BlueprintState) (props : JVal)
    (rd : List (String × JVal)) (hobj : jsTypeofObject props = false)
    (hundef : isUndefB props = false) (hndrd : KeysNodup rd) :
    oget (fieldsOf (preEnforceProps st props rd)) "props" = some props := by
  rw [preEnforceProps_prim st props rd hobj hundef]
  exact oget_jmergeFields_right (assignField rd "props" props) "props" props
    (keysNodup_assignField rd "props" props hndrd)
    (oget_assignField_self rd "props" props) rd

theorem mergeStep_trivial (st : BlueprintState) (fs : List (String × JVal))
    (he : st.enforcedValues = []) (hnd : KeysNodup fs) :
    mergeStep st (JVal.obj fs) [] = JVal.obj fs := by
  unfold mergeStep
  rw [preEnforceProps_obj, he, jmergeFields_nilRight]
  show JVal.obj (jmergeFields [] (jmergeFields [] fs)) = JVal.obj fs
  rw [jmergeFields_nil_left fs hnd, jmergeFields_nil_left fs hnd]

theorem resolveProps_trivial (st : BlueprintState) (fs : List (String × JVal))
    (hp : st.defaultProviders = []) (he : st.enforcedValues = [])
    (hnd : KeysNodup fs) :
    resolveProps st (JVal.obj fs) = (pure (JVal.obj fs) : Eff JVal) := by
  funext t
  rw [resolveProps_run]
  rw [show (resolveDefaultsLoop st.defaultProviders (adjustInput st (JVal.obj fs))) t
      = (Except.ok [], t) from by rw [hp]; rfl]
  show (Except.ok (mergeStep st (JVal.obj fs) []), t) = _
  rw [mergeStep_trivial st fs he hnd]
  rfl

theorem ebind_assoc {α β γ : Type} (m : Eff α) (f : α → Eff β) (g : β → Eff γ) :
    (m >>= f) >>= g = m >>= fun a => f a >>= g := by
  funext t
  show ebind (ebind m f) g t = ebind m (fun a => ebind (f a) g) t
  unfold ebind
  cases m t with
  | mk res t2 => cases res <;> rfl

theorem mapProps_empty (st : BlueprintState) (h : st.inputMappers = []) (p : JVal) :
    mapProps st p = epure p := by
  unfold mapProps
  rw [h]
  rfl

theorem validatePropsStage_off (st : BlueprintState) (h : st.validateProps = false)
    (p : JVal) : validatePropsStage st p = epure p := by
  unfold validatePropsStage
  rw [h]
  rfl

theorem runBeforeHooks_empty (st : BlueprintState) (h : st.beforeHooks = []) (vp : JVal) :
    runBeforeHooks st vp = (pure () : Eff Unit) := by
  unfold runBeforeHooks
  rw [h]
  rfl

theorem processResultAndFinalize_trivial (st : BlueprintState) (vp : JVal)
    (ho : st.outputMappers = []) (hv : st.validateResults = false)
    (ha : st.afterHooks = []) (hvoid : st.isVoid = false) :
    processResultAndFinalize st vp = (epure : JVal → Eff JVal) := by
  funext r
  unfold processResultAndFinalize
  rw [ho, hv, ha, hvoid]
  rfl

/-- A promise value as JavaScript can actually produce it: promises are
never resolved with another promise (`then` and `Promise.resolve`
flatten). -/
def wfDeferred : JVal → Bool
  | JVal.deferred (JVal.deferred _) => false
  | JVal.deferred (JVal.deferredErr _) => false
  | _ => true

theorem jthen_epure (r : JVal) (hth : isThenable r = true) (hwf : wfDeferred r = true) :
    jthen r (epure : JVal → Eff JVal) = epure r := by
  cases r with
  | deferred x =>
      cases x with
      | deferred y => simp [wfDeferred] at hwf
      | deferredErr e => simp [wfDeferred] at hwf
      | undef => rfl
      | vnull => rfl
      | num n => rfl
      | str s => rfl
      | jbool b => rfl
      | obj fs => rfl
  | deferredErr e => rfl
  | undef => simp [isThenable] at hth
  | vnull => simp [isThenable] at hth
  | num n => simp [isThenable] at hth
  | str s => simp [isThenable] at hth
  | jbool b => simp [isThenable] at hth
  | obj fs => simp [isThenable] at hth

theorem jthen_ok_thenable (v : JVal) (f : JVal → Eff JVal) (t : Trace) (d : JVal)
    (t2 : Trace) (h : isThenable v = true)
    (hrun : (jthen v f) t = (Except.ok d, t2)) : isThenable d = true := by
  cases v with
  | deferred x =>
      simp only [jthen] at hrun
      cases hf : f x t with
      | mk res t3 =>
          rw [hf] at hrun
          cases res with
          | error e =>
              simp only [Prod.mk.injEq, Except.ok.injEq] at hrun
              rw [← hrun.1]
              rfl
          | ok u =>
              cases u <;>
                (simp only [Prod.mk.injEq, Except.ok.injEq] at hrun
                 rw [← hrun.1]
                 rfl)
  | deferredErr e =>
      simp only [jthen, epure] at hrun
      simp only [Prod.mk.injEq, Except.ok.injEq] at hrun
      rw [← hrun.1]
      rfl
  | undef => simp [isThenable] at h
  | vnull => simp [isThenable] at h
  | num n => simp [isThenable] at h
  | str s => simp [isThenable] at h
  | jbool b => simp [isThenable] at h
  | obj fs => simp [isThenable] at h

theorem jthen_never_error (v : JVal) (f : JVal → Eff JVal) (t : Trace) (e : String)
    (t2 : Trace) (h : isThenable v = true) :
    (jthen v f) t ≠ (Except.error e, t2) := by
  cases v with
  | deferred x =>
      simp only [jthen]
      cases hf : f x t with
      | mk res t3 =>
          cases res with
          | error e2 => simp
          | ok u => cases u <;> simp
  | deferredErr e2 => simp [jthen, epure]
  | undef => simp [isThenable] at h
  | vnull => simp [isThenable] at h
  | num n => simp [isThenable] at h
  | str s => simp [isThenable] at h
  | jbool b => simp [isThenable] at h
  | obj fs => simp [isThenable] at h

theorem epure_bind {α β : Type} (a : α) (k : α → Eff β) : epure a >>= k = k a := rfl

theorem pure_bind_eff {α β : Type} (a : α) (k : α → Eff β) :
    (pure a : Eff α) >>= k = k a := rfl

theorem thenable_truthy (d : JVal) (h : isThenable d = true) : jsTruthy d = true := by
  cases d <;> simp_all [isThenable, jsTruthy]

theorem invokeFromValidated_some (st : BlueprintState) (f : JVal → Eff JVal)
    (h : st.implementation = some f) (hb : st.beforeHooks = []) (vp : JVal) :
    invokeFromValidated st vp = f vp >>= coreTail st vp := by
  unfold invokeFromValidated
  rw [runBeforeHooks_empty st hb, h]
  rfl

theorem stagesToValidated_trivial (st : BlueprintState) (fs : List (String × JVal))
    (hp : st.defaultProviders = []) (he : st.enforcedValues = [])
    (hm : st.inputMappers = []) (hv : st.validateProps = false)
    (hnd : KeysNodup fs) :
    stagesToValidated st (JVal.obj fs) = epure (JVal.obj fs) := by
  unfold stagesToValidated
  rw [resolveProps_trivial st fs hp he hnd, pure_bind_eff, mapProps_empty st hm,
    epure_bind, validatePropsStage_off st hv]

theorem ebind_run_ok {α β : Type} {m : Eff α} {k : α → Eff β} {t : Trace} {a : α}
    {t2 : Trace} (h : m t = (Except.ok a, t2)) : (m >>= k) t = k a t2 := by
  show ebind m k t = _
  unfold ebind
  rw [h]

theorem ebind_run_err {α β : Type} {m : Eff α} {k : α → Eff β} {t : Trace} {e : String}
    {t2 : Trace} (h : m t = (Except.error e, t2)) :
    (m >>= k) t = (Except.error e, t2) := by
  show ebind m k t = _
  unfold ebind
  rw [h]

theorem asyncNormalize_async_thenable (st : BlueprintState) (r0 : JVal)
    (ha : st.isAsync = true) : isThenable (asyncNormalize st r0) = true := by
  unfold asyncNormalize
  rw [ha]
  cases hth : (jsTruthy r0 && isThenable r0) with
  | true =>
      simp only [Bool.not_true, Bool.and_false, Bool.false_eq_true, if_false]
      exact (Bool.and_eq_true_iff.mp hth).2
  | false => rfl

theorem asyncNormalize_off (st : BlueprintState) (r0 : JVal)
    (ha : st.isAsync = false) : asyncNormalize st r0 = r0 := by
  unfold asyncNormalize
  rw [ha]
  rfl

theorem coreTail_thenable (st : BlueprintState) (vp r0 : JVal)
    (h : isThenable (asyncNormalize st r0) = true) :
    coreTail st vp r0 =
      jthen (asyncNormalize st r0) (processResultAndFinalize st vp) := by
  unfold coreTail
  rw [h, thenable_truthy _ h]
  rfl

theorem coreTail_plain (st : BlueprintState) (vp r0 : JVal)
    (h : (jsTruthy (asyncNormalize st r0) && isThenable (asyncNormalize st r0)) = false) :
    coreTail st vp r0 = processResultAndFinalize st vp (asyncNormalize st r0) := by
  unfold coreTail
  rw [h]
  rfl

theorem async_ok_thenable (st : BlueprintState) (props : JVal) (t : Trace) (r : JVal)
    (t1 : Trace) (ha : st.isAsync = true)
    (h : callableBlueprint st props t = (Except.ok r, t1)) :
    (jsTruthy r && isThenable r) = true := by
  unfold callableBlueprint at h
  cases hs : (stagesToValidated st props) t with
  | mk sres t2 =>
      cases sres with
      | error e =>
          rw [ebind_run_err hs] at h
          simp at h
      | ok vp =>
          rw [ebind_run_ok hs] at h
          unfold invokeFromValidated at h
          cases hbh : (runBeforeHooks st vp) t2 with
          | mk bres t3 =>
              cases bres with
              | error e =>
                  rw [ebind_run_err hbh] at h
                  simp at h
              | ok u =>
                  rw [ebind_run_ok hbh] at h
                  cases himpl : st.implementation with
                  | none =>
                      rw [himpl] at h
                      simp [throwE] at h
                  | some f =>
                      rw [himpl] at h
                      dsimp only [] at h
                      cases hf : (f vp) t3 with
                      | mk fres t4 =>
                          cases fres with
                          | error e =>
                              rw [ebind_run_err hf] at h
                              simp at h
                          | ok r0 =>
                              rw [ebind_run_ok hf] at h
                              rw [coreTail_thenable st vp r0
                                (asyncNormalize_async_thenable st r0 ha)] at h
                              have := jthen_ok_thenable (asyncNormalize st r0)
                                (processResultAndFinalize st vp) t4 r t1
                                (asyncNormalize_async_thenable st r0 ha) h
                              rw [thenable_truthy r this, this]
                              rfl

/-!
## Claim C10
-/

/-- A pipeline with no core logic but a full input-side configuration:
a default provider, an enforced value, a trace-emitting input mapper, a
passing props validator and a trace-emitting before hook. -/
def c10state : BlueprintState :=
  { implementation := none,
    defaultProviders := [fun _ => epure (JVal.obj [("d", JVal.num 1)])],
    enforcedValues := [("e", JVal.num 2)],
    inputMappers := [fun v => do
      emitE "input mapper ran"
      epure v],
    validateProps := true,
    propsSchema := some (fun v => Except.ok v),
    beforeHooks := [fun _ => do
      emitE "before hook ran"
      epure JVal.undef] }

/-- C10: invoking a blueprint with no core logic first runs default
resolution, enforcement, input mapping, input validation and every before
hook (whose side effects are observed), and only then throws the
unimplemented-pipeline error; the missing-implementation check is not
performed before those stages.  First conjunct: for every state with the
implementation removed, the invocation is exactly the input-side stages
followed by the before hooks followed by the unimplemented error.  Second
conjunct: in the concrete scenario the input mapper and the before hook
side effects are observed in the trace before the error. -/
theorem c10_missing_implementation_checked_after_stages
    (st : BlueprintState) (props : JVal) :
    (callableBlueprint { st with implementation := none } props =
      (do
        let vp ← stagesToValidated { st with implementation := none } props
        runBeforeHooks { st with implementation := none } vp
        throwE (notImplementedMsg st.key))) ∧
    runE (callableBlueprint c10state (JVal.obj [("a", JVal.num 3)])) =
      (Except.error "Blueprint has not been implemented.",
        ["input mapper ran", "before hook ran"]) :=
  ⟨rfl, rfl⟩

/-!
## Claim C4
-/

/-- An identity-core blueprint with no default providers, no enforced
values and no input mappers. -/
def c4state : BlueprintState := { implementation := some (fun v => epure v) }

/-- C4 counterexample: on the blueprint with identity core logic and no
defaults, enforced values or input mappers, the primitive caller input `5`
is NOT passed through unchanged: the core logic receives (and here
returns) the record `{props: 5}` produced by line 571's `{ props }`
wrapping. -/
theorem c4_counterexample :
    runE (callableBlueprint c4state (JVal.num 5)) =
      (Except.ok (JVal.obj [("props", JVal.num 5)]), []) ∧
    JVal.obj [("props", JVal.num 5)] ≠ JVal.num 5 :=
  ⟨rfl, fun h => JVal.noConfusion h⟩

/-- Primitive (non-object, non-undefined) caller inputs. -/
def isPrimitiveB : JVal → Bool
  | JVal.num _ => true
  | JVal.str _ => true
  | JVal.jbool _ => true
  | _ => false

/-- C4 amended: a primitive caller input is never passed through
unchanged; regardless of configuration (whether or not defaults, enforced
values or input mappers are present), the input-side stages coerce a
primitive input into a record carrying the primitive under key "props"
(merged over the resolved defaults, and provided "props" is not itself an
enforced key). -/
theorem c4_amended_primitive_always_wrapped (st : BlueprintState) (props : JVal)
    (t : Trace) (r : JVal) (t2 : Trace)
    (hprim : isPrimitiveB props = true)
    (henf : ∀ p ∈ st.enforcedValues, p.1 ≠ "props")
    (h : resolveProps st props t = (Except.ok r, t2)) :
    ∃ fs, r = JVal.obj fs ∧ oget fs "props" = some props := by
  obtain ⟨rd, hnd, hr, _⟩ := resolveProps_ok st props t r t2 h
  refine ⟨jmergeFields (fieldsOf (preEnforceProps st props rd)) st.enforcedValues,
    hr, ?_⟩
  have hgoal : oget (fieldsOf (mergeStep st props rd)) "props" = some props := by
    rw [oget_mergeStep_notEnforced st props rd "props" henf]
    have hobj : jsTypeofObject props = false := by
      cases props <;> simp_all [isPrimitiveB, jsTypeofObject]
    have hundef : isUndefB props = false := by
      cases props <;> simp_all [isPrimitiveB, isUndefB]
    exact oget_preEnforce_prim st props rd hobj hundef hnd
  exact hgoal

/-- Witness for the amended C4 at the concrete input `5`. -/
theorem c4_amended_witness :
    isPrimitiveB (JVal.num 5) = true ∧
    (∃ fs, JVal.obj [("props", JVal.num 5)] = JVal.obj fs ∧
      oget fs "props" = some (JVal.num 5)) :=
  ⟨rfl, c4_amended_primitive_always_wrapped c4state (JVal.num 5) []
    (JVal.obj [("props", JVal.num 5)]) [] rfl (by intro p hp; cases hp) rfl⟩

/-!
## Claim C8
-/

theorem validatePropsStage_fail (st : BlueprintState)
    (schema : JVal → Except String JVal) (mp : JVal) (e : String)
    (hv : st.validateProps = true) (hs : st.propsSchema = some schema)
    (hfail : schema mp = Except.error e) :
    validatePropsStage st mp =
      fun t => (Except.error e,
        t ++ ["console.error: Blueprint props validation error"]) := by
  unfold validatePropsStage
  rw [hv, hs]
  dsimp only []
  rw [hfail]
  rfl

/-- The validator of concrete scenario 5: field "name" must be a non-empty
string. -/
def nameSchema : JVal → Except String JVal := fun v =>
  match jget v "name" with
  | JVal.str s =>
      if s ≠ "" then Except.ok v else Except.error "name must be a non-empty string"
  | _ => Except.error "name must be a non-empty string"

/-- The scenario blueprint: an attached and enabled input validator, a
trace-emitting before hook and a trace-emitting core logic. -/
def c8state : BlueprintState :=
  { implementation := some (fun v => do
      emitE "core logic ran"
      epure v),
    validateProps := true,
    propsSchema := some nameSchema,
    beforeHooks := [fun _ => do
      emitE "before hook ran"
      epure JVal.undef] }

/-- C8: when the attached and enabled input validator's parse fails on the
mapped input, the invocation fails with exactly that validation error, and
the only event added to the trace is the validation diagnostic — no before
hook runs, the core logic is never invoked and no later stage runs. -/
theorem c8_input_validation_aborts (st : BlueprintState)
    (schema : JVal → Except String JVal) (props : JVal) (t t1 t2 : Trace)
    (cp mp : JVal) (e : String)
    (hv : st.validateProps = true) (hs : st.propsSchema = some schema)
    (hr1 : resolveProps st props t = (Except.ok cp, t1))
    (hr2 : mapProps st cp t1 = (Except.ok mp, t2))
    (hfail : schema mp = Except.error e) :
    callableBlueprint st props t =
      (Except.error e, t2 ++ ["console.error: Blueprint props validation error"]) := by
  have hstages : (stagesToValidated st props) t =
      (Except.error e, t2 ++ ["console.error: Blueprint props validation error"]) := by
    unfold stagesToValidated
    rw [ebind_run_ok hr1, ebind_run_ok hr2,
      validatePropsStage_fail st schema mp e hv hs hfail]
  unfold callableBlueprint
  rw [ebind_run_err hstages]

/-- Witness for C8, concrete scenario 5: invoking with `{name: ""}` fails
with the validation error; the trace holds only the diagnostic — neither
"before hook ran" nor "core logic ran" is observed. -/
theorem c8_witness :
    nameSchema (JVal.obj [("name", JVal.str "")]) =
      Except.error "name must be a non-empty string" ∧
    runE (callableBlueprint c8state (JVal.obj [("name", JVal.str "")])) =
      (Except.error "name must be a non-empty string",
        ["console.error: Blueprint props validation error"]) :=
  ⟨rfl, c8_input_validation_aborts c8state nameSchema
    (JVal.obj [("name", JVal.str "")]) [] [] []
    (JVal.obj [("name", JVal.str "")]) (JVal.obj [("name", JVal.str "")])
    "name must be a non-empty string" rfl rfl rfl rfl rfl⟩

/-!
## Claim C2
-/

/-- C2: every enforced key reaches the props handed to the before hooks
and the core logic with exactly the enforced value, whatever the caller
input and the default providers supply (stated for blueprints without
input mappers and without an enabled props validator, which could further
transform the props after enforcement).  The second conjunct identifies
`vp` as precisely the value the invocation hands to `invokeFromValidated`
(before hooks, core logic, result stages). -/
theorem c2_enforced_values_win (st : BlueprintState) (props : JVal) (k : String)
    (v : JVal) (t t2 : Trace) (vp : JVal)
    (hm : st.inputMappers = []) (hv : st.validateProps = false)
    (hnd : KeysNodup st.enforcedValues)
    (henf : oget st.enforcedValues k = some v)
    (hrun : stagesToValidated st props t = (Except.ok vp, t2)) :
    (∃ fs, vp = JVal.obj fs ∧ oget fs k = some v) ∧
    callableBlueprint st props t = invokeFromValidated st vp t2 := by
  have hst : stagesToValidated st props = resolveProps st props := by
    unfold stagesToValidated
    simp only [mapProps_empty st hm, epure_bind, validatePropsStage_off st hv]
    exact ebind_epure _
  have hrp : resolveProps st props t = (Except.ok vp, t2) := by
    rw [← hst]
    exact hrun
  obtain ⟨rd, hndrd, hvp, _⟩ := resolveProps_ok st props t vp t2 hrp
  constructor
  · exact ⟨jmergeFields (fieldsOf (preEnforceProps st props rd)) st.enforcedValues,
      hvp, oget_mergeStep_enforced st props rd k v hnd henf⟩
  · unfold callableBlueprint
    rw [ebind_run_ok hrun]

/-- Core logic of concrete scenarios 2 and 3: `input -> input.a + input.b`. -/
def sumCore : JVal → Eff JVal := fun v =>
  epure (JVal.num (numOf (jget v "a") + numOf (jget v "b")))

/-- Scenario-3 blueprint: the a+b core with `.enforce({b: 100})`. -/
def c2state : BlueprintState :=
  applyChain (ChainCall.enforceC [("b", JVal.num 100)])
    { implementation := some sumCore }

/-- Witness for C2 at concrete scenario 3: with `.enforce({b: 100})` and
caller input `{a: 5, b: 10}`, the core logic receives `b = 100` (the
enforced value, overriding the caller's 10), and the invocation returns
105. -/
theorem c2_witness :
    (∃ fs, JVal.obj [("a", JVal.num 5), ("b", JVal.num 100)] = JVal.obj fs ∧
      oget fs "b" = some (JVal.num 100)) ∧
    runE (callableBlueprint c2state
      (JVal.obj [("a", JVal.num 5), ("b", JVal.num 10)])) =
      (Except.ok (JVal.num 105), []) :=
  ⟨(c2_enforced_values_win c2state
      (JVal.obj [("a", JVal.num 5), ("b", JVal.num 10)]) "b" (JVal.num 100)
      [] [] (JVal.obj [("a", JVal.num 5), ("b", JVal.num 100)])
      rfl rfl (by simp [c2state, applyChain, KeysNodup, jmergeFields, assignField])
      rfl rfl).1, rfl⟩

/-!
## Claim C5
-/

theorem adjustInput_obj (st : BlueprintState) (fs : List (String × JVal))
    (hnd : KeysNodup fs) : adjustInput st (JVal.obj fs) = JVal.obj fs := by
  unfold adjustInput
  simp only [jsTypeofObject, isNullB, isUndefB, Bool.not_false, Bool.and_true,
    Bool.false_and, Bool.false_eq_true, if_false, if_true, spreadVal]
  rw [jmergeFields_nil_left fs hnd]

theorem mergeStep_undef_empty (st : BlueprintState) (rd : List (String × JVal)) :
    mergeStep st JVal.undef rd = mergeStep st (JVal.obj []) rd := by
  unfold mergeStep
  rw [preEnforceProps_undef_empty]

/-- C5: default resolution.  Conjunct 1: an undefined raw input with at
least one provider behaves exactly like an empty record.  Conjunct 2:
caller-supplied keys win over resolved defaults.  Conjunct 3: with two
providers, each function provider is applied to the adjusted caller input
(the props-so-far), later providers' keys override earlier providers', and
a defaulted key missing from the caller input reaches the merged props
with the later provider's value.  Conjuncts 4 and 5: the concrete
scenario — core `input -> input.a + input.b` with `.defaults({b: 2})`
returns 7 on `{a: 5}` and 15 on `{a: 5, b: 10}`. -/
theorem c5_default_resolution :
    (∀ st : BlueprintState, st.defaultProviders.isEmpty = false →
      resolveProps st JVal.undef = resolveProps st (JVal.obj [])) ∧
    (∀ (st : BlueprintState) (fs : List (String × JVal)) (k : String) (v : JVal)
      (t t2 : Trace) (r : JVal), KeysNodup fs →
      (∀ p ∈ st.enforcedValues, p.1 ≠ k) →
      oget fs k = some v →
      resolveProps st (JVal.obj fs) t = (Except.ok r, t2) →
      ∃ gs, r = JVal.obj gs ∧ oget gs k = some v) ∧
    (∀ (st : BlueprintState) (fs d1 d2 : List (String × JVal))
      (p1 p2 : JVal → Eff JVal) (k : String) (v : JVal) (t t1 t2 : Trace),
      st.defaultProviders = [p1, p2] → KeysNodup fs → KeysNodup d2 →
      p1 (JVal.obj fs) t = (Except.ok (JVal.obj d1), t1) →
      p2 (JVal.obj fs) t1 = (Except.ok (JVal.obj d2), t2) →
      oget d2 k = some v →
      (∀ p ∈ fs, p.1 ≠ k) →
      (∀ p ∈ st.enforcedValues, p.1 ≠ k) →
      resolveProps st (JVal.obj fs) t =
        (Except.ok (mergeStep st (JVal.obj fs)
          (jmergeFields (jmergeFields [] d1) d2)), t2) ∧
      ∃ gs, mergeStep st (JVal.obj fs) (jmergeFields (jmergeFields [] d1) d2) =
        JVal.obj gs ∧ oget gs k = some v) ∧
    runE (callableBlueprint
      (applyChain (ChainCall.defaultsC (Sum.inl (JVal.obj [("b", JVal.num 2)])))
        { implementation := some sumCore })
      (JVal.obj [("a", JVal.num 5)])) = (Except.ok (JVal.num 7), []) ∧
    runE (callableBlueprint
      (applyChain (ChainCall.defaultsC (Sum.inl (JVal.obj [("b", JVal.num 2)])))
        { implementation := some sumCore })
      (JVal.obj [("a", JVal.num 5), ("b", JVal.num 10)])) =
      (Except.ok (JVal.num 15), []) := by
  refine ⟨?_, ?_, ?_, rfl, rfl⟩
  · intro st h
    have hmono : st.defaultProviders.isEmpty = false := h
    funext t
    rw [resolveProps_run, resolveProps_run, adjustInput_undef_empty st hmono]
    cases hl : (resolveDefaultsLoop st.defaultProviders
        (adjustInput st (JVal.obj []))) t with
    | mk res t2 =>
        cases res with
        | ok rd =>
            dsimp only []
            rw [mergeStep_undef_empty]
        | error e => rfl
  · intro st fs k v t t2 r hnd henf hget hrun
    obtain ⟨rd, hndrd, hr, _⟩ := resolveProps_ok st (JVal.obj fs) t r t2 hrun
    refine ⟨jmergeFields (fieldsOf (preEnforceProps st (JVal.obj fs) rd))
      st.enforcedValues, hr, ?_⟩
    have : oget (fieldsOf (mergeStep st (JVal.obj fs) rd)) k = some v := by
      rw [oget_mergeStep_notEnforced st (JVal.obj fs) rd k henf]
      exact oget_preEnforce_caller st fs rd k v hnd hndrd hget
    exact this
  · intro st fs d1 d2 p1 p2 k v t t1 t2 hprov hndfs hndd2 hp1 hp2 hget hcaller henf
    have hadj : adjustInput st (JVal.obj fs) = JVal.obj fs := adjustInput_obj st fs hndfs
    have hloop : (resolveDefaultsLoop st.defaultProviders
        (adjustInput st (JVal.obj fs))) t =
        (Except.ok (jmergeFields (jmergeFields [] d1) d2), t2) := by
      rw [hadj, hprov]
      unfold resolveDefaultsLoop
      rw [foldlM_cons_eff]
      rw [ebind_run_ok (show ((do
          let d ← p1 (JVal.obj fs)
          pure (spreadVal [] d)) : Eff (List (String × JVal))) t =
          (Except.ok (jmergeFields [] d1), t1) from by
        rw [defaultsStep_run, hp1]
        rfl)]
      rw [foldlM_cons_eff]
      rw [ebind_run_ok (show ((do
          let d ← p2 (JVal.obj fs)
          pure (spreadVal (jmergeFields [] d1) d)) : Eff (List (String × JVal))) t1 =
          (Except.ok (jmergeFields (jmergeFields [] d1) d2), t2) from by
        rw [defaultsStep_run, hp2]
        rfl)]
      rfl
    have hndrd : KeysNodup (jmergeFields (jmergeFields [] d1) d2) :=
      keysNodup_jmergeFields d2 (jmergeFields [] d1)
        (keysNodup_jmergeFields d1 [] (by simp [KeysNodup]))
    constructor
    · rw [resolveProps_run, hloop]
    · refine ⟨jmergeFields
        (fieldsOf (preEnforceProps st (JVal.obj fs)
          (jmergeFields (jmergeFields [] d1) d2))) st.enforcedValues, rfl, ?_⟩
      have : oget (fieldsOf (mergeStep st (JVal.obj fs)
          (jmergeFields (jmergeFields [] d1) d2))) k = some v := by
        rw [oget_mergeStep_notEnforced st (JVal.obj fs) _ k henf]
        exact oget_preEnforce_default st fs _ k v hndrd hcaller
          (oget_jmergeFields_right d2 k v hndd2 hget (jmergeFields [] d1))
      exact this

/-- Scenario-2 blueprint: the a+b core with `.defaults({b: 2})`. -/
def c5state : BlueprintState :=
  applyChain (ChainCall.defaultsC (Sum.inl (JVal.obj [("b", JVal.num 2)])))
    { implementation := some sumCore }

/-- Witness for C5 (caller-wins conjunct) at the concrete scenario: with
`.defaults({b: 2})` and caller input `{a: 5, b: 10}`, the merged props
carry the caller's `b = 10`, not the default 2. -/
theorem c5_witness :
    KeysNodup [("a", JVal.num 5), ("b", JVal.num 10)] ∧
    (∃ gs, JVal.obj [("b", JVal.num 10), ("a", JVal.num 5)] = JVal.obj gs ∧
      oget gs "b" = some (JVal.num 10)) :=
  ⟨by simp [KeysNodup],
    c5_default_resolution.2.1 c5state [("a", JVal.num 5), ("b", JVal.num 10)]
      "b" (JVal.num 10) [] [] (JVal.obj [("b", JVal.num 10), ("a", JVal.num 5)])
      (by simp [KeysNodup]) (by intro p hp; cases hp) rfl rfl⟩

/-!
## Claim C6
-/

/-- A sequence of `input(t)` chain calls applied left to right. -/
def buildInputs (s0 : BlueprintState) (ts : List (JVal → Eff JVal)) : BlueprintState :=
  ts.foldl (fun s tr => applyChain (ChainCall.inputC tr) s) s0

theorem buildInputs_mappers (ts : List (JVal → Eff JVal)) :
    ∀ s0, (buildInputs s0 ts).inputMappers = ts.reverse ++ s0.inputMappers := by
  induction ts with
  | nil => intro s0; simp [buildInputs]
  | cons tr rest ih =>
      intro s0
      show (buildInputs (applyChain (ChainCall.inputC tr) s0) rest).inputMappers = _
      rw [ih]
      simp [applyChain]

/-- C6: input transforms are applied in reverse order of addition.
Conjunct 1: after `input(t1); ...; input(tn)` the mapper list is
`[tn, ..., t1]` (each call prepends).  Conjunct 2: the input-mapping stage
folds that list left to right, so the transform added last runs first and
each transform consumes the previous one's output.  Conjunct 3: the
invocation feeds the input-mapping stage exactly the post-defaults,
post-enforcement props (`resolveProps` output). -/
theorem c6_input_mappers_reverse_order :
    (∀ (s0 : BlueprintState) (ts : List (JVal → Eff JVal)),
      (buildInputs s0 ts).inputMappers = ts.reverse ++ s0.inputMappers) ∧
    (∀ (s0 : BlueprintState) (ts : List (JVal → Eff JVal)),
      s0.inputMappers = [] → ∀ p : JVal,
      mapProps (buildInputs s0 ts) p =
        ts.reverse.foldlM (fun v tr => tr v) p) ∧
    (∀ (st : BlueprintState) (props : JVal),
      callableBlueprint st props =
        resolveProps st props >>= fun cp =>
          mapProps st cp >>= fun mp =>
            validatePropsStage st mp >>= fun vp =>
              invokeFromValidated st vp) := by
  refine ⟨fun s0 ts => buildInputs_mappers ts s0, ?_, ?_⟩
  · intro s0 ts h p
    unfold mapProps
    rw [buildInputs_mappers ts s0, h, List.append_nil]
  · intro st props
    show (stagesToValidated st props >>= invokeFromValidated st) = _
    unfold stagesToValidated
    simp only [ebind_assoc]

def c6t1 : JVal → Eff JVal := fun v => epure (JVal.num (numOf v + 1))

def c6t2 : JVal → Eff JVal := fun v => epure (JVal.num (numOf v * 2))

def c6base : BlueprintState := { implementation := some (fun v => epure v) }

/-- Witness for C6: adding `c6t1` then `c6t2` yields mapper list
`[c6t2, c6t1]`, and on input `{}` (numeric value 0) the last-added
transform runs first: `(0 * 2) + 1 = 1`, not `(0 + 1) * 2 = 2`. -/
theorem c6_witness :
    mapProps (buildInputs c6base [c6t1, c6t2]) (JVal.obj []) =
      [c6t1, c6t2].reverse.foldlM (fun v tr => tr v) (JVal.obj []) ∧
    runE (mapProps (buildInputs c6base [c6t1, c6t2]) (JVal.obj [])) =
      (Except.ok (JVal.num 1), []) :=
  ⟨c6_input_mappers_reverse_order.2.1 c6base [c6t1, c6t2] rfl (JVal.obj []),
    by rw [c6_input_mappers_reverse_order.2.1 c6base [c6t1, c6t2] rfl (JVal.obj [])]
       rfl⟩

/-!
## Claim C7
-/

/-- A sequence of `output(t)` chain calls applied left to right. -/
def buildOutputs (s0 : BlueprintState) (ts : List (JVal → JVal → Eff JVal)) :
    BlueprintState :=
  ts.foldl (fun s tr => applyChain (ChainCall.outputC tr) s) s0

theorem buildOutputs_mappers (ts : List (JVal → JVal → Eff JVal)) :
    ∀ s0, (buildOutputs s0 ts).outputMappers = s0.outputMappers ++ ts := by
  induction ts with
  | nil => intro s0; simp [buildOutputs]
  | cons tr rest ih =>
      intro s0
      show (buildOutputs (applyChain (ChainCall.outputC tr) s0) rest).outputMappers = _
      rw [ih]
      simp [applyChain]

theorem prf_outputs (st : BlueprintState) (vp : JVal)
    (hv : st.validateResults = false) (ha : st.afterHooks = [])
    (hvoid : st.isVoid = false) :
    processResultAndFinalize st vp =
      fun r => st.outputMappers.foldlM (fun acc (mp : JVal → JVal → Eff JVal) => mp acc vp) r := by
  funext r
  unfold processResultAndFinalize
  rw [hv, ha, hvoid]
  exact ebind_epure _

/-- C7: output transforms run in the order they were added (conjuncts 1
and 2), and at invocation time each receives the running result together
with the validated input produced by the input stages — not the raw
caller input (conjunct 3, where `vp` is the `stagesToValidated` output and
the mappers fold over the core result with `vp` as second argument). -/
theorem c7_output_mappers_in_order :
    (∀ (s0 : BlueprintState) (ts : List (JVal → JVal → Eff JVal)),
      (buildOutputs s0 ts).outputMappers = s0.outputMappers ++ ts) ∧
    (∀ (st : BlueprintState) (vp : JVal),
      st.validateResults = false → st.afterHooks = [] → st.isVoid = false →
      processResultAndFinalize st vp =
        fun r => st.outputMappers.foldlM (fun acc (mp : JVal → JVal → Eff JVal) => mp acc vp) r) ∧
    (∀ (st : BlueprintState) (f : JVal → Eff JVal) (props vp r0 : JVal)
      (t t2 t3 : Trace),
      st.implementation = some f → st.beforeHooks = [] → st.isAsync = false →
      st.validateResults = false → st.afterHooks = [] → st.isVoid = false →
      stagesToValidated st props t = (Except.ok vp, t2) →
      f vp t2 = (Except.ok r0, t3) →
      (jsTruthy r0 && isThenable r0) = false →
      callableBlueprint st props t =
        (st.outputMappers.foldlM (fun acc (mp : JVal → JVal → Eff JVal) => mp acc vp) r0) t3) := by
  refine ⟨fun s0 ts => buildOutputs_mappers ts s0, fun st vp hv ha hvoid =>
    prf_outputs st vp hv ha hvoid, ?_⟩
  intro st f props vp r0 t t2 t3 himpl hb hasync hv ha hvoid hstages hf hth
  unfold callableBlueprint
  rw [ebind_run_ok hstages, invokeFromValidated_some st f himpl hb,
    ebind_run_ok hf]
  rw [coreTail_plain st vp r0 (by rw [asyncNormalize_off st r0 hasync]; exact hth)]
  rw [asyncNormalize_off st r0 hasync]
  rw [prf_outputs st vp hv ha hvoid]

def c7m1 : JVal → JVal → Eff JVal := fun r vp =>
  epure (JVal.num (numOf r + numOf vp))

def c7m2 : JVal → JVal → Eff JVal := fun r vp =>
  epure (JVal.num (numOf r * 10 + numOf vp))

/-- Core returning 1, one input mapper turning any input into 5 (so the
validated input differs from the raw caller input), and output mappers
`c7m1` then `c7m2`. -/
def c7state : BlueprintState :=
  { implementation := some (fun _ => epure (JVal.num 1)),
    inputMappers := [fun _ => epure (JVal.num 5)],
    outputMappers := [c7m1, c7m2] }

/-- Witness for C7: invoking with raw input 99 gives validated input 5;
`c7m1` runs first on the core result 1 (giving 1 + 5 = 6), then `c7m2`
(giving 6 * 10 + 5 = 65).  The reversed order would give 20. -/
theorem c7_witness :
    callableBlueprint c7state (JVal.num 99) [] = (Except.ok (JVal.num 65), []) :=
  (c7_output_mappers_in_order.2.2 c7state (fun _ => epure (JVal.num 1))
    (JVal.num 99) (JVal.num 5) (JVal.num 1) [] [] []
    rfl rfl rfl rfl rfl rfl rfl rfl rfl).trans rfl

/-!
## Claim C1
-/

/-- C1 amended: every chain method of the `makeCallable` engine is
non-destructive — the chain call allocates a NEW callable (a fresh index,
distinct from the receiver's), the receiver's slot in the heap is
untouched, and invoking the receiver afterwards behaves exactly as
before.  (The original claim fails for the alternative factory's
`implement`, see the counterexample.) -/
theorem c1_amended_chain_methods_nondestructive (σ : List BlueprintState)
    (i : Nat) (c : ChainCall) (h : i < σ.length) :
    (applyChainHeap σ i c).1 ≠ i ∧
    (applyChainHeap σ i c).2.get? i = σ.get? i ∧
    (∀ props : JVal,
      ((applyChainHeap σ i c).2.get? i).map (fun st => callableBlueprint st props) =
        (σ.get? i).map (fun st => callableBlueprint st props)) := by
  cases hσ : σ.get? i with
  | none =>
      exact absurd h (by simpa using List.get?_eq_none.mp hσ)
  | some st =>
      unfold applyChainHeap
      rw [hσ]
      refine ⟨Ne.symm (Nat.ne_of_lt h), ?_, ?_⟩
      · rw [List.get?_append h, hσ]
      · intro props
        rw [List.get?_append h, hσ]

def c1base : BlueprintState := { implementation := some (fun v => epure v) }

/-- Witness for the amended C1: a `toAsync` chain call on the only
callable in a one-element heap allocates index 1, leaves slot 0 unchanged
and preserves the receiver's behavior. -/
theorem c1_amended_witness :
    (0 : Nat) < [c1base].length ∧
    (applyChainHeap [c1base] 0 ChainCall.toAsyncC).1 ≠ 0 ∧
    (applyChainHeap [c1base] 0 ChainCall.toAsyncC).2.get? 0 = [c1base].get? 0 :=
  ⟨by decide,
    (c1_amended_chain_methods_nondestructive [c1base] 0 ChainCall.toAsyncC
      (by decide)).1,
    (c1_amended_chain_methods_nondestructive [c1base] 0 ChainCall.toAsyncC
      (by decide)).2.1⟩

/-- The one-element heap holding a fresh alternative-factory blueprint
(no `init`, so the closure variable holds the Not-Implemented thrower). -/
def altSigma0 : List AltBlueprintState :=
  [{ implementation := altNotImplemented, addons := [], fields := [] }]

def altImpl42 : JVal → Eff JVal := fun _ => epure (JVal.num 42)

/-- C1 counterexample: the alternative factory's `implement` (source lines
224-227) returns the receiver itself — the SAME callable, not a distinct
one — and mutates the receiver's behavior: before the call, invoking the
blueprint throws Not Implemented; after the call the very same callable
returns 42. -/
theorem c1_counterexample :
    (altImplement altSigma0 0 altImpl42).1 = 0 ∧
    runE (altCall altSigma0 0 (JVal.num 1)) = (Except.error "Not Implemented", []) ∧
    runE (altCall (altImplement altSigma0 0 altImpl42).2 0 (JVal.num 1)) =
      (Except.ok (JVal.num 42), []) :=
  ⟨rfl, rfl, rfl⟩

/-!
## Claim C9
-/

def c9addon : AddonBundle := { core := [("x", JVal.num 1)] }

/-- C9 counterexample: `addon` of the alternative factory (source lines
245-247, `Object.assign(_blueprint, ...)`) does NOT merge onto a copy: it
returns the receiver itself (same index 0) and the receiver's own state is
changed in place (its fields acquire the bundle's `x`), so the original
callable is not left unchanged and the returned callable is not a new
value. -/
theorem c9_counterexample :
    (altAddon altSigma0 0 c9addon).1 = 0 ∧
    ((altAddon altSigma0 0 c9addon).2.get? 0).map AltBlueprintState.fields =
      some [("x", JVal.num 1)] ∧
    (altSigma0.get? 0).map AltBlueprintState.fields = some [] ∧
    (altAddon altSigma0 0 c9addon).2.get? 0 ≠ altSigma0.get? 0 :=
  ⟨rfl, rfl, rfl, fun h =>
    List.noConfusion (congrArg AltBlueprintState.fields (Option.some.inj h))⟩

/-- C9 amended: attaching a bundle records it in the receiver's addons
list and merges the bundle's fields onto the receiver IN PLACE — the same
callable is returned (same index) and the receiver's slot now holds the
updated state; name collisions are resolved last-applied-wins (a key of
the bundle overrides any existing field of the same name). -/
theorem c9_amended_addon_mutates_in_place (σ : List AltBlueprintState) (i : Nat)
    (a : AddonBundle) (st : AltBlueprintState) (h : σ.get? i = some st) :
    (altAddon σ i a).1 = i ∧
    (altAddon σ i a).2.get? i =
      some { st with addons := st.addons ++ [a],
                     fields := jmergeFields st.fields a.core } ∧
    (∀ (k : String) (v : JVal), KeysNodup a.core → oget a.core k = some v →
      oget (jmergeFields st.fields a.core) k = some v) := by
  have hlt : i < σ.length := by
    cases hl : Nat.lt_or_ge i σ.length with
    | inl h2 => exact h2
    | inr h2 =>
        rw [List.get?_eq_none.mpr h2] at h
        cases h
  unfold altAddon
  rw [h]
  refine ⟨rfl, ?_, ?_⟩
  · dsimp only []
    rw [List.get?_set_eq, List.get?_eq_get hlt]
    rfl
  · intro k v hnd hget
    exact oget_jmergeFields_right a.core k v hnd hget st.fields

/-- Witness for the amended C9 on the concrete one-element heap. -/
theorem c9_amended_witness :
    altSigma0.get? 0 =
      some { implementation := altNotImplemented, addons := [], fields := [] } ∧
    (altAddon altSigma0 0 c9addon).1 = 0 ∧
    (altAddon altSigma0 0 c9addon).2.get? 0 =
      some { implementation := altNotImplemented, addons := [c9addon],
             fields := jmergeFields [] c9addon.core } :=
  ⟨rfl,
    (c9_amended_addon_mutates_in_place altSigma0 0 c9addon
      { implementation := altNotImplemented, addons := [], fields := [] } rfl).1,
    (c9_amended_addon_mutates_in_place altSigma0 0 c9addon
      { implementation := altNotImplemented, addons := [], fields := [] } rfl).2.1⟩

/-!
## Claim C3
-/

theorem asyncNormalize_thenable (st : BlueprintState) (r0 : JVal)
    (h : isThenable r0 = true) : asyncNormalize st r0 = r0 := by
  unfold asyncNormalize
  rw [h, thenable_truthy r0 h]
  simp

def c3voidState : BlueprintState :=
  applyChain ChainCall.toVoidC { implementation := some (fun _ => epure (JVal.num 1)) }

def c3next : JVal → Eff JVal := fun _ => epure (JVal.num 7)

/-- C3 counterexample: for the void pipeline P (core returns 1, then
`toVoid`) and `next = _ => 7`, `pipe(P, next)({})` returns `undefined`
(the piped callable carries P's `isVoid` flag and collapses the result),
while `next(P({}))` returns 7 — so `pipe(P, next)(x)` does NOT always
equal `next(P(x))` on non-deferred results. -/
theorem c3_counterexample :
    runE (callableBlueprint c3voidState (JVal.obj [])) = (Except.ok JVal.undef, []) ∧
    runE (c3next JVal.undef) = (Except.ok (JVal.num 7), []) ∧
    runE (callableBlueprint (applyChain (ChainCall.pipeC c3next) c3voidState)
      (JVal.obj [])) = (Except.ok JVal.undef, []) ∧
    JVal.undef ≠ JVal.num 7 :=
  ⟨rfl, rfl, rfl, fun h => JVal.noConfusion h⟩

/-- C3 amended: for a record input and a pipeline whose `isVoid` flag is
unset, `pipe` behaves as claimed.  Conjunct 1: the piped callable's own
mapper, hook, provider and validator configuration starts empty while its
`isAsync`/`isVoid` flags are carried over from P.  Conjunct 2: when `P(x)`
succeeds with a non-deferred value `r`, the piped invocation equals
`next(r)` run on P's final trace (for continuation outputs JavaScript can
produce, i.e. without nested promises).  Conjunct 3: when `P(x)` succeeds
with a deferred value, the piped invocation equals the deferred resolution
`P(x).then(next)` (the `jthen` composition).  (The original claim fails
for void pipelines — see the counterexample — and primitive inputs are
first coerced to `{props: x}` by the piped callable's own input stage.) -/
theorem c3_amended_pipe_composition (st : BlueprintState)
    (next : JVal → Eff JVal) (fs : List (String × JVal)) (t t1 : Trace) (r : JVal)
    (hvoid : st.isVoid = false) (hnd : KeysNodup fs)
    (hP : callableBlueprint st (JVal.obj fs) t = (Except.ok r, t1)) :
    ((pipeState st next).inputMappers = [] ∧
     (pipeState st next).outputMappers = [] ∧
     (pipeState st next).beforeHooks = [] ∧
     (pipeState st next).afterHooks = [] ∧
     (pipeState st next).defaultProviders = [] ∧
     (pipeState st next).validateProps = false ∧
     (pipeState st next).validateResults = false ∧
     (pipeState st next).isAsync = st.isAsync ∧
     (pipeState st next).isVoid = st.isVoid) ∧
    ((jsTruthy r && isThenable r) = false →
      (match (next r) t1 with
       | (Except.ok y, _) => wfDeferred y
       | (Except.error _, _) => true) = true →
      callableBlueprint (pipeState st next) (JVal.obj fs) t = (next r) t1) ∧
    ((jsTruthy r && isThenable r) = true →
      (match (jthen r next) t1 with
       | (Except.ok y, _) => wfDeferred y
       | (Except.error _, _) => true) = true →
      callableBlueprint (pipeState st next) (JVal.obj fs) t = (jthen r next) t1) := by
  have hhead : callableBlueprint (pipeState st next) (JVal.obj fs) =
      pipeImplementation st next (JVal.obj fs) >>=
        coreTail (pipeState st next) (JVal.obj fs) := by
    unfold callableBlueprint
    rw [stagesToValidated_trivial (pipeState st next) fs rfl rfl rfl rfl hnd,
      epure_bind,
      invokeFromValidated_some (pipeState st next) (pipeImplementation st next)
        rfl rfl (JVal.obj fs)]
  have hprf : processResultAndFinalize (pipeState st next) (JVal.obj fs) =
      (epure : JVal → Eff JVal) :=
    processResultAndFinalize_trivial (pipeState st next) (JVal.obj fs)
      rfl rfl rfl hvoid
  refine ⟨⟨rfl, rfl, rfl, rfl, rfl, rfl, rfl, rfl, rfl⟩, ?_, ?_⟩
  · intro hth hwf
    have hasync : st.isAsync = false := by
      cases hA : st.isAsync with
      | false => rfl
      | true =>
          have := async_ok_thenable st (JVal.obj fs) t r t1 hA hP
          rw [hth] at this
          cases this
    have hpi : pipeImplementation st next (JVal.obj fs) t = (next r) t1 := by
      unfold pipeImplementation
      rw [ebind_run_ok hP, hth, if_neg Bool.false_ne_true]
    cases hnr : (next r) t1 with
    | mk res2 t2 =>
        cases res2 with
        | error e =>
            rw [hhead, ebind_run_err (hpi.trans hnr)]
        | ok y =>
            rw [hnr] at hwf
            have hwfy : wfDeferred y = true := hwf
            rw [hhead, ebind_run_ok (hpi.trans hnr)]
            have hoff : asyncNormalize (pipeState st next) y = y :=
              asyncNormalize_off (pipeState st next) y hasync
            cases hty : (jsTruthy y && isThenable y) with
            | true =>
                have hthy : isThenable y = true := (Bool.and_eq_true_iff.mp hty).2
                rw [coreTail_thenable (pipeState st next) (JVal.obj fs) y
                  (by rw [hoff]; exact hthy)]
                rw [hoff, hprf, jthen_epure y hthy hwfy]
                rfl
            | false =>
                rw [coreTail_plain (pipeState st next) (JVal.obj fs) y
                  (by rw [hoff]; exact hty)]
                rw [hoff, hprf]
                rfl
  · intro hth hwf
    have hthen : isThenable r = true := (Bool.and_eq_true_iff.mp hth).2
    have hpi : pipeImplementation st next (JVal.obj fs) t = (jthen r next) t1 := by
      unfold pipeImplementation
      rw [ebind_run_ok hP, hth, if_pos rfl]
    cases hjt : (jthen r next) t1 with
    | mk res3 t3 =>
        cases res3 with
        | error e => exact absurd hjt (jthen_never_error r next t1 e t3 hthen)
        | ok d =>
            rw [hjt] at hwf
            have hwfd : wfDeferred d = true := hwf
            have hthd : isThenable d = true :=
              jthen_ok_thenable r next t1 d t3 hthen hjt
            rw [hhead, ebind_run_ok (hpi.trans hjt)]
            rw [coreTail_thenable (pipeState st next) (JVal.obj fs) d
              (by rw [asyncNormalize_thenable (pipeState st next) d hthd]; exact hthd)]
            rw [asyncNormalize_thenable (pipeState st next) d hthd, hprf,
              jthen_epure d hthd hwfd]
            rfl

def c3pstate : BlueprintState := { implementation := some (fun _ => epure (JVal.num 3)) }

def c3inc : JVal → Eff JVal := fun v => epure (JVal.num (numOf v + 1))

/-- Witness for the amended C3 (non-deferred conjunct) at a concrete
pipeline: P returns 3, `next` increments, and the piped invocation equals
`next(P({}))` = 4. -/
theorem c3_amended_witness :
    callableBlueprint c3pstate (JVal.obj []) [] = (Except.ok (JVal.num 3), []) ∧
    callableBlueprint (pipeState c3pstate c3inc) (JVal.obj []) [] =
      (c3inc (JVal.num 3)) [] ∧
    (c3inc (JVal.num 3)) [] = (Except.ok (JVal.num 4), []) :=
  ⟨rfl,
    (c3_amended_pipe_composition c3pstate c3inc [] [] [] (JVal.num 3)
      rfl (by simp [KeysNodup]) rfl).2.1 rfl rfl,
    rfl⟩
